import Mathlib

set_option synthInstance.maxSize 4096

/-!
# Verification of the extract-merge-export pipeline (`main.py`)

A shallow embedding of the core functions of the pipeline:
`resolve_date_range`, `parse_link_header`, `extract_records`,
`fetch_paginated`, `filter_fields`, `merge_records`, and the CSV field
resolution performed in `main`.

Modelling choices:
* JSON values are the inductive `Json` (numbers as `Int`, which covers every
  value the claims exercise).
* A Python `dict` is an association list with unique keys maintained by the
  dict operations themselves: inserting an existing key updates the value in
  place (keeping the key's position), inserting a new key appends it.  This is
  exactly CPython's insertion-order semantics.
* A `Record` is a dict from field name to `Json` value.
* Python strings are manipulated through their character lists, with
  structural recursion, so that every function computes by `decide`/`rfl`.
* I/O (HTTP, files) is made explicit: `fetch_paginated` runs against a finite
  script of page responses and also returns the trace of requests it issued.
* Join values are compared structurally.  CPython would raise `TypeError` on
  an unhashable (list/dict-valued) join key; the spec's data model restricts
  record values to scalar-or-null, where the two notions coincide, and that
  failure mode is not modelled here.
-/

/-- JSON values, as produced by `response.json()`. -/
inductive Json where
  | null : Json
  | bool (b : Bool) : Json
  | num (n : Int) : Json
  | str (s : String) : Json
  | arr (items : List Json) : Json
  | obj (fields : List (String × Json)) : Json

mutual

/-- Structural equality test for `Json`, mirroring Python `==` on
JSON-shaped data. -/
def Json.beq : Json → Json → Bool
  | .null, .null => true
  | .bool a, .bool b => a == b
  | .num a, .num b => a == b
  | .str a, .str b => a == b
  | .arr xs, .arr ys => jsonListBeq xs ys
  | .obj xs, .obj ys => jsonObjBeq xs ys
  | _, _ => false

def jsonListBeq : List Json → List Json → Bool
  | [], [] => true
  | x :: xs, y :: ys => Json.beq x y && jsonListBeq xs ys
  | _, _ => false

def jsonObjBeq : List (String × Json) → List (String × Json) → Bool
  | [], [] => true
  | (k, v) :: xs, (l, w) :: ys => k == l && Json.beq v w && jsonObjBeq xs ys
  | _, _ => false

end

mutual

theorem Json.beq_iff : ∀ a b : Json, (Json.beq a b = true) ↔ a = b
  | .null, .null => by simp [Json.beq]
  | .bool a, .bool b => by simp [Json.beq]
  | .num a, .num b => by simp [Json.beq]
  | .str a, .str b => by simp [Json.beq]
  | .arr xs, .arr ys => by
    have h := jsonListBeq_iff xs ys
    simp [Json.beq, h]
  | .obj xs, .obj ys => by
    have h := jsonObjBeq_iff xs ys
    simp [Json.beq, h]
  | .null, .bool _ => by simp [Json.beq]
  | .null, .num _ => by simp [Json.beq]
  | .null, .str _ => by simp [Json.beq]
  | .null, .arr _ => by simp [Json.beq]
  | .null, .obj _ => by simp [Json.beq]
  | .bool _, .null => by simp [Json.beq]
  | .bool _, .num _ => by simp [Json.beq]
  | .bool _, .str _ => by simp [Json.beq]
  | .bool _, .arr _ => by simp [Json.beq]
  | .bool _, .obj _ => by simp [Json.beq]
  | .num _, .null => by simp [Json.beq]
  | .num _, .bool _ => by simp [Json.beq]
  | .num _, .str _ => by simp [Json.beq]
  | .num _, .arr _ => by simp [Json.beq]
  | .num _, .obj _ => by simp [Json.beq]
  | .str _, .null => by simp [Json.beq]
  | .str _, .bool _ => by simp [Json.beq]
  | .str _, .num _ => by simp [Json.beq]
  | .str _, .arr _ => by simp [Json.beq]
  | .str _, .obj _ => by simp [Json.beq]
  | .arr _, .null => by simp [Json.beq]
  | .arr _, .bool _ => by simp [Json.beq]
  | .arr _, .num _ => by simp [Json.beq]
  | .arr _, .str _ => by simp [Json.beq]
  | .arr _, .obj _ => by simp [Json.beq]
  | .obj _, .null => by simp [Json.beq]
  | .obj _, .bool _ => by simp [Json.beq]
  | .obj _, .num _ => by simp [Json.beq]
  | .obj _, .str _ => by simp [Json.beq]
  | .obj _, .arr _ => by simp [Json.beq]

theorem jsonListBeq_iff : ∀ xs ys : List Json, (jsonListBeq xs ys = true) ↔ xs = ys
  | [], [] => by simp [jsonListBeq]
  | [], _ :: _ => by simp [jsonListBeq]
  | _ :: _, [] => by simp [jsonListBeq]
  | x :: xs, y :: ys => by
    have h1 := Json.beq_iff x y
    have h2 := jsonListBeq_iff xs ys
    simp [jsonListBeq, h1, h2]

theorem jsonObjBeq_iff :
    ∀ xs ys : List (String × Json), (jsonObjBeq xs ys = true) ↔ xs = ys
  | [], [] => by simp [jsonObjBeq]
  | [], _ :: _ => by simp [jsonObjBeq]
  | _ :: _, [] => by simp [jsonObjBeq]
  | (k, v) :: xs, (l, w) :: ys => by
    have h1 := Json.beq_iff v w
    have h2 := jsonObjBeq_iff xs ys
    simp [jsonObjBeq, h1, h2]

end

/-- Decidable equality for `Json`, through `Json.beq`. -/
def Json.decEq (a b : Json) : Decidable (a = b) :=
  decidable_of_iff _ (Json.beq_iff a b)

instance : DecidableEq Json := Json.decEq

/-- A Python `dict` with keys `K` and values `V`, as an association list whose
operations maintain CPython's insertion-order semantics. -/
abbrev Dict (K V : Type) : Type := List (K × V)

/-- `d.get(k)` without default: the value stored at `k`, if present. -/
def dget {K V : Type} [DecidableEq K] : Dict K V → K → Option V
  | [], _ => none
  | (k, v) :: rest, key => if k = key then some v else dget rest key

/-- `d[k] = v`: update in place if `k` is present (keeping its position),
else append the new entry. -/
def dinsert {K V : Type} [DecidableEq K] : Dict K V → K → V → Dict K V
  | [], key, val => [(key, val)]
  | (k, v) :: rest, key, val =>
    if k = key then (k, val) :: rest else (k, v) :: dinsert rest key val

/-- `d.setdefault(k, []).append(v)` for a dict of lists. -/
def dAppendAt {K V : Type} [DecidableEq K] : Dict K (List V) → K → V → Dict K (List V)
  | [], key, val => [(key, [val])]
  | (k, l) :: rest, key, val =>
    if k = key then (k, l ++ [val]) :: rest else (k, l) :: dAppendAt rest key val

/-- The keys of a dict, in insertion order. -/
def dkeys {K V : Type} (d : Dict K V) : List K := d.map Prod.fst

/-- The last-occurrence association of `q` in a raw pair list (used to state
what repeated insertion of a pair list computes). -/
def lookupLast {K V : Type} [DecidableEq K] : Dict K V → K → Option V
  | [], _ => none
  | (k, v) :: rest, q =>
    match lookupLast rest q with
    | some w => some w
    | none => if k = q then some v else none

/-- A record: a dict from field name to JSON value (`main.py`'s
`Dict[str, Any]`). -/
abbrev Record : Type := Dict String Json

/-- Python's `record.get(k)`: the stored value, or `None` when the key is
absent.  Since `None` is JSON `null`, absence and an explicit `null` value
collapse to `Json.null`, exactly as in the source. -/
def pyGet (r : Record) (k : String) : Json := (dget r k).getD Json.null

/-- A record is well-formed when its field names are distinct — true of every
dict Python ever builds. -/
def WFRecord (r : Record) : Prop := (dkeys r).Nodup

instance (r : Record) : Decidable (WFRecord r) :=
  inferInstanceAs (Decidable (List.Nodup _))

/-! ## String helpers (Python `str` operations, over character lists) -/

/-- Python `s.split(c)`: split on every occurrence of the character `c`. -/
def splitChar (c : Char) : List Char → List (List Char)
  | [] => [[]]
  | x :: xs =>
    match splitChar c xs with
    | [] => [[]]
    | part :: parts =>
      if x = c then [] :: part :: parts else (x :: part) :: parts

/-- Python `s.split(c, 1)`: split on the first occurrence of `c`; `none` when
`c` does not occur (Python would return a single segment). -/
def splitOnceChar (c : Char) : List Char → Option (List Char × List Char)
  | [] => none
  | x :: xs =>
    if x = c then some ([], xs)
    else (splitOnceChar c xs).map (fun p => (x :: p.1, p.2))

/-- Strip every leading and trailing character that belongs to `cs`
(Python `s.strip(chars)`). -/
def stripChars (cs : List Char) (l : List Char) : List Char :=
  ((l.dropWhile (fun c => cs.contains c)).reverse.dropWhile
    (fun c => cs.contains c)).reverse

/-- The whitespace characters stripped by Python's bare `s.strip()`. -/
def wsChars : List Char := [' ', '\t', '\n', '\r', '\x0b', '\x0c']

/-! ## `parse_link_header` (main.py lines 57-70) -/

/-- One iteration of the `for part in link_header.split(",")` loop body. -/
def linkStep (links : Dict String String) (part : List Char) : Dict String String :=
  match splitOnceChar ';' part with
  | none => links
  | some (urlPart, relPart) =>
    let url := stripChars ['<', '>'] (stripChars wsChars urlPart)
    let rel := stripChars wsChars relPart
    if ("rel=".toList).isPrefixOf rel then
      match splitOnceChar '=' rel with
      | some (_, afterEq) =>
        dinsert links (String.mk (stripChars ['\"'] afterEq)) (String.mk url)
      | none => links
    else links

/-- `parse_link_header(link_header)`: `{}` on a falsy header, else fold the
loop body over the comma-separated parts. -/
def parse_link_header (linkHeader : Option String) : Dict String String :=
  match linkHeader with
  | none => []
  | some h =>
    if h = "" then []
    else (splitChar ',' h.toList).foldl linkStep []

/-! ## `extract_records` (main.py lines 73-81) -/

/-- `item` as a record when it is dict-like. -/
def asObj : Json → Option Record
  | .obj fields => some fields
  | _ => none

/-- Python `isinstance(item, dict)`. -/
def Json.isObj : Json → Bool
  | .obj _ => true
  | _ => false

/-- The container keys probed, in order, by `extract_records`. -/
def containerKeys : List String := ["data", "items", "results"]

/-- The first of `containerKeys` whose value in `fields` is a list —
the early-returning `for key in ("data", "items", "results")` loop. -/
def firstContainerList (fields : Record) : Option (List Json) :=
  containerKeys.findSome? (fun key =>
    match dget fields key with
    | some (.arr items) => some items
    | _ => none)

/-- `extract_records(payload)`. -/
def extract_records (payload : Json) : List Record :=
  match payload with
  | .arr items => items.filterMap asObj
  | .obj fields =>
    match firstContainerList fields with
    | some items => items.filterMap asObj
    | none => [fields]
  | _ => []

/-! ## `filter_fields` (main.py lines 98-102) -/

/-- The dict comprehension `{field: record.get(field) for field in fields}`:
successive insertion of each field's looked-up value, where a missing field
contributes Python `None`, i.e. `Json.null`. -/
def projectRecord (fields : List String) (record : Record) : Record :=
  fields.foldl (fun acc field => dinsert acc field (pyGet record field)) []

/-- `filter_fields(records, fields)`. -/
def filter_fields (records : List Record) (fields : List String) : List Record :=
  records.map (projectRecord fields)

/-! ## `merge_records` (main.py lines 105-129) -/

/-- One iteration of the lookup-building loop: skip items whose merge-key
value is `None` (absent or null), otherwise `setdefault(key, []).append`. -/
def lookupStep (mergeKey : String) (lookup : Dict Json (List Record))
    (item : Record) : Dict Json (List Record) :=
  let key := pyGet item mergeKey
  if key = Json.null then lookup else dAppendAt lookup key item

/-- The `lookup` dict built from the secondary records. -/
def buildLookup (secondary : List Record) (mergeKey : String) :
    Dict Json (List Record) :=
  secondary.foldl (lookupStep mergeKey) []

/-- `{**base, **extra}`: every entry of `extra` inserted, in order, on top of
`base`. -/
def dictMerge (base extra : Record) : Record :=
  extra.foldl (fun acc kv => dinsert acc kv.1 kv.2) base

/-- The body of the `for base in primary` loop: accumulation by `append` /
repeated `append`, i.e. concatenation of each base record's contribution. -/
def mergeLoop (lookup : Dict Json (List Record)) (mergeKey : String) :
    List Record → List Record
  | [] => []
  | base :: rest =>
    (match dget lookup (pyGet base mergeKey) with
     | none => [base]
     | some [] => [base]
     | some extras => extras.map (fun extra => dictMerge base extra)) ++
      mergeLoop lookup mergeKey rest

/-- `merge_records(primary, secondary, merge_key)`. -/
def merge_records (primary secondary : List Record) (mergeKey : String) :
    List Record :=
  if secondary = [] then primary
  else mergeLoop (buildLookup secondary mergeKey) mergeKey primary

/-! ## `fetch_paginated` (main.py lines 84-95)

The HTTP side is made explicit: the server is a finite script of page
responses consumed in order (one per `requests.get` call), and the function
also returns the trace of `(url, params)` requests it issued.  `none` means
the script ran out while a "next" link was still pending (the real code would
keep calling). -/

/-- Query parameters of a request (`params=...` in `requests.get`);
`none` models Python `None`. -/
abbrev Params : Type := Dict String String

/-- One page served by the HTTP endpoint: the JSON body and the optional
`Link` response header. -/
structure PageResponse where
  body : Json
  linkHeader : Option String

/-- The `while next_url` loop, one script entry consumed per iteration.
Each iteration extends the accumulated records with the page's normalized
records; the loop continues exactly when `links.get("next")` is truthy
(present and non-empty), and then with the linked URL and `params=None`. -/
def fetchLoop (url : String) (params : Option Params) :
    List PageResponse → Option (List Record × List (String × Option Params))
  | [] => none
  | page :: rest =>
    match dget (parse_link_header page.linkHeader) "next" with
    | none => some (extract_records page.body, [(url, params)])
    | some nextUrl =>
      if nextUrl = "" then some (extract_records page.body, [(url, params)])
      else
        match fetchLoop nextUrl none rest with
        | none => none
        | some (moreRecs, calls) =>
          some (extract_records page.body ++ moreRecs, (url, params) :: calls)

/-- `fetch_paginated(url, headers, params)` run against a response script.
Headers do not influence the control flow and are omitted. -/
def fetch_paginated (url : String) (params : Params)
    (script : List PageResponse) :
    Option (List Record × List (String × Option Params)) :=
  fetchLoop url (some params) script

/-- The `"next"` relation of a page's `Link` header, if any. -/
def nextLinkOf (page : PageResponse) : Option String :=
  dget (parse_link_header page.linkHeader) "next"

/-- Whether the loop continues after this page: a `"next"` relation exists
and its URL is truthy. -/
def hasNext (page : PageResponse) : Bool :=
  match nextLinkOf page with
  | none => false
  | some u => decide (u ≠ "")

/-- Page 1 of the spec's pagination scenario: body `{"items":[{"id":1}]}`,
header `Link: <url2>; rel="next"`. -/
def scenarioPage1 : PageResponse :=
  ⟨Json.obj [("items", Json.arr [Json.obj [("id", Json.num 1)]])],
    some "<url2>; rel=\"next\""⟩

/-- Page 2 of the spec's pagination scenario: body `{"items":[{"id":2}]}`,
no `Link` header. -/
def scenarioPage2 : PageResponse :=
  ⟨Json.obj [("items", Json.arr [Json.obj [("id", Json.num 2)]])], none⟩

/-! ## `resolve_date_range` (main.py lines 43-54)

Dates are proleptic-Gregorian ordinals (`dt.date.toordinal`, day 1 =
0001-01-01), so `date + timedelta(days=k)` is integer addition.  The ambient
`dt.date.today()` is threaded as an explicit `today` parameter. -/

/-- Python `calendar.isleap`. -/
def isLeapYear (y : Nat) : Bool :=
  y % 4 == 0 && (y % 100 != 0 || y % 400 == 0)

/-- Days in month `m` of year `y`. -/
def daysInMonth (y : Nat) (m : Nat) : Nat :=
  if m = 2 then (if isLeapYear y then 29 else 28)
  else if m = 4 ∨ m = 6 ∨ m = 9 ∨ m = 11 then 30
  else 31

/-- Days in the months of year `y` strictly before month `m`. -/
def daysBeforeMonth (y : Nat) (m : Nat) : Nat :=
  (List.range (m - 1)).foldl (fun acc i => acc + daysInMonth y (i + 1)) 0

/-- `dt.date(y, m, d).toordinal()`. -/
def toOrdinal (y m d : Nat) : Int :=
  365 * ((y : Int) - 1) + ((y : Int) - 1) / 4 - ((y : Int) - 1) / 100 +
    ((y : Int) - 1) / 400 + (daysBeforeMonth y m : Int) + (d : Int)

/-- Digits-only natural number parse. -/
def parseNatDigits (l : List Char) : Option Nat :=
  if l = [] then none
  else if l.all (fun c => c.isDigit) then
    some (l.foldl (fun acc c => acc * 10 + (c.toNat - 48)) 0)
  else none

/-- `dt.date.fromisoformat`: `"YYYY-MM-DD"` to an ordinal, `none` on a value
that is not a valid calendar date (Python raises `ValueError`). -/
def fromisoformat (s : String) : Option Int :=
  match splitChar '-' s.toList with
  | [ys, ms, ds] =>
    match parseNatDigits ys, parseNatDigits ms, parseNatDigits ds with
    | some y, some m, some d =>
      if 1 ≤ y ∧ 1 ≤ m ∧ m ≤ 12 ∧ 1 ≤ d ∧ d ≤ daysInMonth y m then
        some (toOrdinal y m d)
      else none
    | _, _, _ => none
  | _ => none

/-- The `date_ranges.manual.<name>` subtree: optional `start` / `end` date
strings. -/
structure ManualRange where
  startDate : Option String
  endDate : Option String

/-- The `date_ranges.<name>` subtree: optional integer day offsets. -/
structure OffsetRange where
  start_offset_days : Option Int
  end_offset_days : Option Int

/-- The `date_ranges` configuration subtree consumed by
`resolve_date_range`. -/
structure DateRangesConfig where
  manual : Dict String ManualRange
  offsets : Dict String OffsetRange

/-- Python truthiness of an optional string (`None` and `""` are falsy). -/
def truthy : Option String → Bool
  | none => false
  | some s => s ≠ ""

/-- `config.get("date_ranges", {}).get("manual", {}).get(range_name, {})`. -/
def manualFor (config : DateRangesConfig) (rangeName : String) : ManualRange :=
  (dget config.manual rangeName).getD ⟨none, none⟩

/-- `config.get("date_ranges", {}).get(range_name, {})`. -/
def offsetsFor (config : DateRangesConfig) (rangeName : String) : OffsetRange :=
  (dget config.offsets rangeName).getD ⟨none, none⟩

/-- `resolve_date_range(config, range_name)` with `dt.date.today()` passed in
as `today`.  `none` models the fatal `ValueError` on an invalid manual date
string. -/
def resolve_date_range (config : DateRangesConfig) (rangeName : String)
    (today : Int) : Option (Int × Int) :=
  let manual := manualFor config rangeName
  if truthy manual.startDate && truthy manual.endDate then
    match manual.startDate, manual.endDate with
    | some s, some e =>
      match fromisoformat s, fromisoformat e with
      | some a, some b => some (a, b)
      | _, _ => none
    | _, _ => none
  else
    let offs := offsetsFor config rangeName
    some (today + (offs.start_offset_days.getD 0),
          today + (offs.end_offset_days.getD 0))

/-! ## CSV field resolution (main.py line 247)

`write_csv(output_path, merged_records, output_fields or
sorted(merged_records[0].keys()) if merged_records else [])` — by Python
precedence the conditional governs the whole expression, so an empty record
list always yields `[]`. -/

/-- Stable insertion of a string into a sorted list. -/
def insortStr (s : String) : List String → List String
  | [] => [s]
  | x :: xs => if s ≤ x then s :: x :: xs else x :: insortStr s xs

/-- Python `sorted` on a list of strings. -/
def sortStrings (l : List String) : List String := l.foldr insortStr []

/-- The field list handed to `write_csv`, as the code computes it. -/
def resolveCsvFields (outputFields : List String) (mergedRecords : List Record) :
    List String :=
  match mergedRecords with
  | [] => []
  | r :: _ => if outputFields = [] then sortStrings (dkeys r) else outputFields

/-- The field list as the spec describes it: a non-empty output whitelist is
always the column list; only an empty whitelist falls back to the sorted
field names of the first record, or to no columns when there are no
records. -/
def resolveCsvFieldsSpec (outputFields : List String)
    (mergedRecords : List Record) : List String :=
  if outputFields = [] then
    match mergedRecords with
    | [] => []
    | r :: _ => sortStrings (dkeys r)
  else outputFields

/-! ## Spec-side restatement of the merge (for the order/shape claims) -/

/-- The secondary records that a primary record whose merge-key value is `v`
joins with: none when `v` is null (such a value is never a lookup key), else
the secondaries carrying exactly that value, in arrival order. -/
def matchingSecondaries (secondary : List Record) (mergeKey : String)
    (v : Json) : List Record :=
  if v = Json.null then []
  else secondary.filter (fun item => decide (pyGet item mergeKey = v))

/-- One primary record's contribution to the merged output: itself when
unmatched, else one overlay per matching secondary, in arrival order. -/
def mergeContribution (secondary : List Record) (mergeKey : String)
    (base : Record) : List Record :=
  if matchingSecondaries secondary mergeKey (pyGet base mergeKey) = []
  then [base]
  else (matchingSecondaries secondary mergeKey (pyGet base mergeKey)).map
    (dictMerge base)

/-- The merge as the spec describes it: identity on an empty secondary, else
the in-order concatenation of every primary record's contribution. -/
def mergeSpec (primary secondary : List Record) (mergeKey : String) :
    List Record :=
  if secondary = [] then primary
  else (primary.map (mergeContribution secondary mergeKey)).flatten

/-! ## Dict lemmas -/

theorem dget_dinsert {K V : Type} [DecidableEq K] (d : Dict K V) (k : K) (v : V) :
    dget (dinsert d k v) k = some v := by
  induction d with
  | nil => simp [dinsert, dget]
  | cons kv rest ih =>
    obtain ⟨k0, v0⟩ := kv
    by_cases h : k0 = k
    · simp [dinsert, h, dget]
    · simp [dinsert, h, dget, ih]

theorem dget_dinsert_ne {K V : Type} [DecidableEq K] (d : Dict K V) (k q : K)
    (v : V) (h : k ≠ q) : dget (dinsert d k v) q = dget d q := by
  induction d with
  | nil => simp [dinsert, dget, h]
  | cons kv rest ih =>
    obtain ⟨k0, v0⟩ := kv
    by_cases h0 : k0 = k
    · subst h0
      simp [dinsert, dget, h]
    · simp [dinsert, h0, dget, ih]

theorem dkeys_dinsert {K V : Type} [DecidableEq K] (d : Dict K V) (k : K) (v : V) :
    dkeys (dinsert d k v) =
      if k ∈ dkeys d then dkeys d else dkeys d ++ [k] := by
  induction d with
  | nil => simp [dinsert, dkeys]
  | cons kv rest ih =>
    obtain ⟨k0, v0⟩ := kv
    by_cases h0 : k0 = k
    · subst h0
      simp [dinsert, dkeys]
    · have hne : ¬ k = k0 := fun h => h0 h.symm
      simp only [dkeys, List.map_cons, List.mem_cons, hne, false_or, dinsert,
        if_neg h0] at ih ⊢
      by_cases hm : k ∈ List.map Prod.fst rest
      · rw [if_pos hm] at ih ⊢
        rw [ih]
      · rw [if_neg hm] at ih ⊢
        rw [ih]
        simp

/-! ## Lemmas on the dict-comprehension fold used by `filter_fields` -/

theorem dget_foldInsert_not_mem {K V : Type} [DecidableEq K] (g : K → V)
    (fs : List K) (d : Dict K V) (q : K) (h : q ∉ fs) :
    dget (fs.foldl (fun acc f => dinsert acc f (g f)) d) q = dget d q := by
  induction fs generalizing d with
  | nil => rfl
  | cons f rest ih =>
    have hq : q ∉ rest := fun hq => h (List.mem_cons_of_mem _ hq)
    have hne : f ≠ q := fun he => h (he ▸ List.mem_cons_self f rest)
    simp only [List.foldl_cons]
    rw [ih _ hq, dget_dinsert_ne _ _ _ _ hne]

theorem dget_foldInsert_mem {K V : Type} [DecidableEq K] (g : K → V)
    (fs : List K) (d : Dict K V) (q : K) (h : q ∈ fs) :
    dget (fs.foldl (fun acc f => dinsert acc f (g f)) d) q = some (g q) := by
  induction fs generalizing d with
  | nil => cases h
  | cons f rest ih =>
    simp only [List.foldl_cons]
    by_cases hq : q ∈ rest
    · exact ih _ hq
    · have hfq : f = q := by
        rcases List.mem_cons.mp h with h1 | h2
        · exact h1.symm
        · exact absurd h2 hq
      subst hfq
      rw [dget_foldInsert_not_mem _ _ _ _ hq, dget_dinsert]

theorem dkeys_foldInsert_mem_iff {K V : Type} [DecidableEq K] (g : K → V)
    (fs : List K) (d : Dict K V) (q : K) :
    q ∈ dkeys (fs.foldl (fun acc f => dinsert acc f (g f)) d) ↔
      q ∈ dkeys d ∨ q ∈ fs := by
  induction fs generalizing d with
  | nil => simp
  | cons f rest ih =>
    simp only [List.foldl_cons, ih, dkeys_dinsert]
    by_cases hf : f ∈ dkeys d
    · simp only [if_pos hf, List.mem_cons]
      constructor
      · rintro (h | h)
        · exact Or.inl h
        · exact Or.inr (Or.inr h)
      · rintro (h | h | h)
        · exact Or.inl h
        · exact Or.inl (h ▸ hf)
        · exact Or.inr h
    · simp only [if_neg hf, List.mem_append, List.mem_singleton, List.mem_cons]
      tauto

theorem dkeys_foldInsert_nodup {K V : Type} [DecidableEq K] (g : K → V)
    (fs : List K) (d : Dict K V) (h : (dkeys d ++ fs).Nodup) :
    dkeys (fs.foldl (fun acc f => dinsert acc f (g f)) d) = dkeys d ++ fs := by
  induction fs generalizing d with
  | nil => simp
  | cons f rest ih =>
    have hf : f ∉ dkeys d := by
      intro hf
      rcases List.nodup_append.mp h with ⟨-, -, hdisj⟩
      exact hdisj hf (List.mem_cons_self f rest)
    simp only [List.foldl_cons]
    have hkeys : dkeys (dinsert d f (g f)) = dkeys d ++ [f] := by
      rw [dkeys_dinsert, if_neg hf]
    have hperm : dkeys d ++ f :: rest = (dkeys d ++ [f]) ++ rest := by
      simp
    rw [ih (dinsert d f (g f)) (by rw [hkeys, ← hperm]; exact h), hkeys, ← hperm]

theorem foldInsert_congr {K V : Type} [DecidableEq K] (g1 g2 : K → V)
    (fs : List K) (d : Dict K V) (h : ∀ f ∈ fs, g1 f = g2 f) :
    fs.foldl (fun acc f => dinsert acc f (g1 f)) d =
      fs.foldl (fun acc f => dinsert acc f (g2 f)) d := by
  induction fs generalizing d with
  | nil => rfl
  | cons f rest ih =>
    simp only [List.foldl_cons]
    rw [h f (List.mem_cons_self f rest)]
    exact ih _ (fun f hf => h f (List.mem_cons_of_mem _ hf))

/-! ## Projection lemmas (`filter_fields`) -/

theorem projectRecord_keys_mem_iff (fields : List String) (r : Record)
    (q : String) : q ∈ dkeys (projectRecord fields r) ↔ q ∈ fields := by
  unfold projectRecord
  rw [dkeys_foldInsert_mem_iff]
  simp [dkeys]

theorem projectRecord_keys_of_nodup (fields : List String) (r : Record)
    (h : fields.Nodup) : dkeys (projectRecord fields r) = fields := by
  unfold projectRecord
  have := dkeys_foldInsert_nodup (fun f => pyGet r f) fields [] (by simpa [dkeys])
  simpa [dkeys] using this

theorem dget_projectRecord_mem (fields : List String) (r : Record) (f : String)
    (h : f ∈ fields) : dget (projectRecord fields r) f = some (pyGet r f) :=
  dget_foldInsert_mem _ _ _ _ h

theorem projectRecord_idem (fields : List String) (r : Record) :
    projectRecord fields (projectRecord fields r) = projectRecord fields r := by
  show List.foldl (fun acc field => dinsert acc field
      (pyGet (projectRecord fields r) field)) [] fields =
    List.foldl (fun acc field => dinsert acc field (pyGet r field)) [] fields
  apply foldInsert_congr
  intro f hf
  show pyGet (projectRecord fields r) f = pyGet r f
  unfold pyGet
  rw [dget_projectRecord_mem fields r f hf]
  rfl

/-! ## Merge lemmas -/

theorem dget_eq_none_of_not_mem {K V : Type} [DecidableEq K] (d : Dict K V)
    (q : K) (h : q ∉ dkeys d) : dget d q = none := by
  induction d with
  | nil => rfl
  | cons kv rest ih =>
    obtain ⟨k0, v0⟩ := kv
    have h1 : ¬ k0 = q := fun he => h (by simp [dkeys, he])
    have h2 : q ∉ dkeys rest := fun hm => h (by simp [dkeys] at hm ⊢; exact Or.inr hm)
    simp [dget, h1, ih h2]

theorem dgetD_dAppendAt_self {K V : Type} [DecidableEq K] (d : Dict K (List V))
    (k : K) (v : V) :
    (dget (dAppendAt d k v) k).getD [] = (dget d k).getD [] ++ [v] := by
  induction d with
  | nil => simp [dAppendAt, dget]
  | cons kv rest ih =>
    obtain ⟨k0, l0⟩ := kv
    by_cases h0 : k0 = k
    · simp [dAppendAt, h0, dget]
    · simp [dAppendAt, h0, dget, ih]

theorem dget_dAppendAt_ne {K V : Type} [DecidableEq K] (d : Dict K (List V))
    (k q : K) (v : V) (h : k ≠ q) : dget (dAppendAt d k v) q = dget d q := by
  induction d with
  | nil => simp [dAppendAt, dget, h]
  | cons kv rest ih =>
    obtain ⟨k0, l0⟩ := kv
    by_cases h0 : k0 = k
    · subst h0
      simp [dAppendAt, dget, h]
    · simp [dAppendAt, h0, dget, ih]

theorem buildLookup_go_null (mergeKey : String) (s : List Record)
    (acc : Dict Json (List Record)) :
    dget (s.foldl (lookupStep mergeKey) acc) Json.null = dget acc Json.null := by
  induction s generalizing acc with
  | nil => rfl
  | cons item rest ih =>
    simp only [List.foldl_cons]
    rw [ih]
    unfold lookupStep
    by_cases h : pyGet item mergeKey = Json.null
    · simp [h]
    · simp only [if_neg h]
      exact dget_dAppendAt_ne _ _ _ _ h

theorem buildLookup_get_null (s : List Record) (mergeKey : String) :
    dget (buildLookup s mergeKey) Json.null = none :=
  (buildLookup_go_null mergeKey s []).trans rfl

theorem buildLookup_go_getD (mergeKey : String) (v : Json) (hv : v ≠ Json.null)
    (s : List Record) (acc : Dict Json (List Record)) :
    (dget (s.foldl (lookupStep mergeKey) acc) v).getD [] =
      (dget acc v).getD [] ++
        s.filter (fun item => decide (pyGet item mergeKey = v)) := by
  induction s generalizing acc with
  | nil => simp
  | cons item rest ih =>
    simp only [List.foldl_cons, List.filter_cons]
    by_cases hm : pyGet item mergeKey = v
    · have hnn : ¬ pyGet item mergeKey = Json.null := by rw [hm]; exact hv
      rw [ih]
      unfold lookupStep
      rw [if_neg hnn, hm, dgetD_dAppendAt_self]
      simp [hm]
    · rw [ih]
      unfold lookupStep
      by_cases hn : pyGet item mergeKey = Json.null
      · simp [hn, hm]
        exact (if_neg (fun he => hv he.symm)).symm
      · rw [if_neg hn, dget_dAppendAt_ne _ _ _ _ (fun he => hm he)]
        simp [hm]

theorem buildLookup_getD (s : List Record) (mergeKey : String) (v : Json)
    (hv : v ≠ Json.null) :
    (dget (buildLookup s mergeKey) v).getD [] =
      s.filter (fun item => decide (pyGet item mergeKey = v)) := by
  have := buildLookup_go_getD mergeKey v hv s []
  simpa [buildLookup] using this

theorem dget_foldl_dinsert_pairs {K V : Type} [DecidableEq K] (pairs : Dict K V)
    (d : Dict K V) (q : K) :
    dget (pairs.foldl (fun acc kv => dinsert acc kv.1 kv.2) d) q =
      match lookupLast pairs q with
      | some w => some w
      | none => dget d q := by
  induction pairs generalizing d with
  | nil => rfl
  | cons kv rest ih =>
    obtain ⟨k, v⟩ := kv
    simp only [List.foldl_cons, lookupLast]
    rw [ih]
    cases hrest : lookupLast rest q with
    | some w => rfl
    | none =>
      by_cases hk : k = q
      · subst hk
        simp [dget_dinsert]
      · simp only [if_neg hk, dget_dinsert_ne _ _ _ _ hk]

theorem lookupLast_of_nodup {K V : Type} [DecidableEq K] (m : Dict K V)
    (h : (dkeys m).Nodup) (q : K) : lookupLast m q = dget m q := by
  induction m with
  | nil => rfl
  | cons kv rest ih =>
    obtain ⟨k, v⟩ := kv
    have hk : k ∉ dkeys rest := by
      simp only [dkeys, List.map_cons, List.nodup_cons] at h
      exact h.1
    have hrest : (dkeys rest).Nodup := by
      simp only [dkeys, List.map_cons, List.nodup_cons] at h
      exact h.2
    simp only [lookupLast, dget, ih hrest]
    by_cases hkq : k = q
    · subst hkq
      rw [dget_eq_none_of_not_mem rest k hk]
    · simp only [if_neg hkq]
      cases dget rest q with
      | some w => rfl
      | none => rfl

theorem dget_dictMerge (p m : Record) (h : WFRecord m) (q : String) :
    dget (dictMerge p m) q =
      match dget m q with
      | some w => some w
      | none => dget p q := by
  unfold dictMerge
  rw [dget_foldl_dinsert_pairs, lookupLast_of_nodup m h]
  cases dget m q <;> rfl

/-- One primary record's contribution in `mergeLoop` agrees with
`mergeContribution`. -/
theorem mergeLoop_head_eq (s : List Record) (mergeKey : String) (base : Record) :
    (match dget (buildLookup s mergeKey) (pyGet base mergeKey) with
     | none => [base]
     | some [] => [base]
     | some extras => extras.map (fun extra => dictMerge base extra)) =
      mergeContribution s mergeKey base := by
  unfold mergeContribution matchingSecondaries
  by_cases hv : pyGet base mergeKey = Json.null
  · rw [hv, buildLookup_get_null]
    simp
  · have hL := buildLookup_getD s mergeKey (pyGet base mergeKey) hv
    rw [if_neg hv]
    cases hdg : dget (buildLookup s mergeKey) (pyGet base mergeKey) with
    | none =>
      rw [hdg] at hL
      simp only [Option.getD_none] at hL
      rw [← hL]
      simp
    | some extras =>
      rw [hdg] at hL
      simp only [Option.getD_some] at hL
      cases extras with
      | nil =>
        rw [← hL]
        simp
      | cons e es =>
        rw [← hL]
        simp

/-- `merge_records` computes exactly the spec-side merge: identity on an
empty secondary, else the concatenation, over primary records in order, of
each record's contribution. -/
theorem merge_records_eq_mergeSpec (primary secondary : List Record)
    (mergeKey : String) :
    merge_records primary secondary mergeKey =
      mergeSpec primary secondary mergeKey := by
  unfold merge_records mergeSpec
  by_cases hs : secondary = []
  · simp [hs]
  · simp only [if_neg hs]
    induction primary with
    | nil => rfl
    | cons base rest ih =>
      simp only [mergeLoop, List.map_cons, List.flatten_cons, ih]
      rw [mergeLoop_head_eq]

/-- Every contribution is non-empty. -/
theorem mergeContribution_ne_nil (s : List Record) (mergeKey : String)
    (base : Record) : mergeContribution s mergeKey base ≠ [] := by
  unfold mergeContribution
  by_cases h : matchingSecondaries s mergeKey (pyGet base mergeKey) = []
  · simp [h]
  · simp only [if_neg h]
    intro hmap
    exact h (List.map_eq_nil_iff.mp hmap)

theorem length_le_flatten_map {α β : Type} (f : α → List β) (l : List α)
    (h : ∀ a ∈ l, 1 ≤ (f a).length) :
    l.length ≤ ((l.map f).flatten).length := by
  induction l with
  | nil => simp
  | cons a rest ih =>
    simp only [List.map_cons, List.flatten_cons, List.length_append,
      List.length_cons]
    have h1 := h a (List.mem_cons_self a rest)
    have h2 := ih (fun x hx => h x (List.mem_cons_of_mem _ hx))
    omega

/-! ## Pagination lemmas -/

theorem fetchLoop_sound :
    ∀ (script : List PageResponse) (url : String) (ps : Option Params)
      (recs : List Record) (calls : List (String × Option Params)),
      fetchLoop url ps script = some (recs, calls) →
      1 ≤ calls.length ∧ calls.length ≤ script.length ∧
      calls.head? = some (url, ps) ∧
      recs = ((script.take calls.length).map
        (fun pg => extract_records pg.body)).flatten ∧
      calls.tail = (script.take (calls.length - 1)).map
        (fun pg => ((nextLinkOf pg).getD "", (none : Option Params))) ∧
      (∀ pg ∈ script.take (calls.length - 1), hasNext pg = true) ∧
      (∀ pg, script[calls.length - 1]? = some pg → hasNext pg = false) := by
  intro script
  induction script with
  | nil =>
    intro url ps recs calls h
    cases h
  | cons page rest ih =>
    intro url ps recs calls h
    unfold fetchLoop at h
    cases hnl : dget (parse_link_header page.linkHeader) "next" with
    | none =>
      rw [hnl] at h
      cases h
      refine ⟨by simp, by simp, rfl, by simp, by simp, by simp, ?_⟩
      intro pg hpg
      simp only [List.length_singleton, Nat.sub_self, List.getElem?_cons_zero,
        Option.some.injEq] at hpg
      subst hpg
      simp [hasNext, nextLinkOf, hnl]
    | some u =>
      rw [hnl] at h
      dsimp only at h
      by_cases hu : u = ""
      · rw [if_pos hu] at h
        cases h
        refine ⟨by simp, by simp, rfl, by simp, by simp, by simp, ?_⟩
        intro pg hpg
        simp only [List.length_singleton, Nat.sub_self, List.getElem?_cons_zero,
          Option.some.injEq] at hpg
        subst hpg
        simp [hasNext, nextLinkOf, hnl, hu]
      · rw [if_neg hu] at h
        cases hrec : fetchLoop u none rest with
        | none =>
          rw [hrec] at h
          cases h
        | some pr =>
          obtain ⟨more, calls1⟩ := pr
          rw [hrec] at h
          cases h
          obtain ⟨h1, h2, h3, h4, h5, h6, h7⟩ := ih u none more calls1 hrec
          cases calls1 with
          | nil => cases h1
          | cons c cs =>
            have hc : c = (u, none) := by
              simpa using h3
            subst hc
            have hlen : ((u, (none : Option Params)) :: cs).length - 1 = cs.length := by
              simp
            constructor
            · simp
            · constructor
              · simp only [List.length_cons] at h2 ⊢
                omega
              · constructor
                · rfl
                · constructor
                  · simp only [List.length_cons, List.take_succ_cons,
                      List.map_cons, List.flatten_cons]
                    rw [h4]
                    simp
                  · constructor
                    · simp only [List.length_cons, Nat.add_sub_cancel,
                        List.take_succ_cons, List.map_cons, List.tail_cons]
                      simp only [List.tail_cons, hlen] at h5
                      rw [← h5]
                      simp [nextLinkOf, hnl]
                    · constructor
                      · intro pg hpg
                        simp only [List.length_cons, Nat.add_sub_cancel,
                          List.take_succ_cons, List.mem_cons] at hpg
                        rcases hpg with hpg | hpg
                        · subst hpg
                          simp [hasNext, nextLinkOf, hnl, hu]
                        · rw [hlen] at h6
                          exact h6 pg hpg
                      · intro pg hpg
                        simp only [List.length_cons, Nat.add_sub_cancel,
                          List.getElem?_cons_succ] at hpg
                        rw [hlen] at h7
                        exact h7 pg hpg

/-! ## Claim theorems -/

/-- **C1**: `merge_records` is left-join complete: with a non-empty secondary
every primary record contributes at least one output record, so the output is
at least as long as the primary; with an empty secondary the primary list is
returned unchanged (identity short-circuit), so the lengths agree exactly. -/
theorem merge_records_left_join_complete (primary secondary : List Record)
    (mergeKey : String) :
    (secondary ≠ [] →
      primary.length ≤ (merge_records primary secondary mergeKey).length) ∧
    merge_records primary [] mergeKey = primary := by
  constructor
  · intro hs
    rw [merge_records_eq_mergeSpec]
    unfold mergeSpec
    rw [if_neg hs]
    exact length_le_flatten_map _ _
      (fun base _ => List.length_pos.mpr
        (mergeContribution_ne_nil secondary mergeKey base))
  · rfl

/-- Witness for C1 at a concrete input. -/
theorem merge_records_left_join_complete_witness :
    ([[("id", Json.num 1)]] : List Record).length ≤
      (merge_records [[("id", Json.num 1)]] [[("x", Json.num 2)]] "id").length ∧
    merge_records [[("id", Json.num 1)]] [] "id" = [[("id", Json.num 1)]] := by
  have h := merge_records_left_join_complete [[("id", Json.num 1)]]
    [[("x", Json.num 2)]] "id"
  exact ⟨h.1 (by decide),
    (merge_records_left_join_complete [[("id", Json.num 1)]] [] "id").2⟩

/-- **C9**: projection is idempotent: filtering an already-filtered record
list by the same field list changes nothing. -/
theorem filter_fields_idempotent (records : List Record) (fields : List String) :
    filter_fields (filter_fields records fields) fields =
      filter_fields records fields := by
  unfold filter_fields
  rw [List.map_map]
  apply List.map_congr_left
  intro r _
  exact projectRecord_idem fields r

/-- **C10**: `merge_records` preserves order: the output is the in-order
concatenation over primary records of each record's contribution — the
record itself when unmatched (in particular when its join value is absent or
null, which never matches), else one overlay per matching secondary record
in the secondary's arrival order. -/
theorem merge_records_preserves_order (primary secondary : List Record)
    (mergeKey : String) :
    merge_records primary secondary mergeKey =
      mergeSpec primary secondary mergeKey :=
  merge_records_eq_mergeSpec primary secondary mergeKey

/-- **C3**: the field list handed to `write_csv` diverges from the spec's
"resolved output field list" exactly when the merged record set is empty and
the output whitelist is non-empty: the code then passes `[]` (the Python
conditional at main.py line 247 governs the whole expression), while the
spec mandates the whitelist.  On every non-empty record set the two agree. -/
theorem resolveCsvFields_divergence :
    resolveCsvFields ["a"] [] = [] ∧
    resolveCsvFieldsSpec ["a"] [] = ["a"] ∧
    (∀ outputFields : List String, ∀ r : Record, ∀ rest : List Record,
      resolveCsvFields outputFields (r :: rest) =
        resolveCsvFieldsSpec outputFields (r :: rest)) := by
  refine ⟨rfl, rfl, ?_⟩
  intro outputFields r rest
  unfold resolveCsvFields resolveCsvFieldsSpec
  by_cases h : outputFields = [] <;> simp [h]

theorem map_obj_filterMap_asObj (items : List Json) :
    (items.filterMap asObj).map Json.obj = items.filter Json.isObj := by
  induction items with
  | nil => rfl
  | cons x rest ih =>
    cases x <;>
      simp [asObj, Json.isObj, List.filterMap_cons, List.filter_cons, ih]

/-- **C5**: `extract_records` is total (it is a Lean function) and obeys the
normalization policy: a list keeps exactly its dict-like elements in order
(non-dicts silently dropped); a mapping is normalized through the first of
`"data"`, `"items"`, `"results"` whose value is a list, the same way; a
mapping with no such key becomes a one-element record set; any scalar or
null yields the empty record set. -/
theorem extract_records_total_shape (payload : Json) :
    (∀ items, payload = Json.arr items →
      (extract_records payload).map Json.obj = items.filter Json.isObj) ∧
    (∀ fields, payload = Json.obj fields →
      (∀ items, firstContainerList fields = some items →
        (extract_records payload).map Json.obj = items.filter Json.isObj) ∧
      (firstContainerList fields = none → extract_records payload = [fields])) ∧
    ((payload = Json.null ∨ (∃ b, payload = Json.bool b) ∨
      (∃ n, payload = Json.num n) ∨ (∃ t, payload = Json.str t)) →
      extract_records payload = []) := by
  refine ⟨?_, ?_, ?_⟩
  · rintro items rfl
    unfold extract_records
    exact map_obj_filterMap_asObj items
  · rintro fields rfl
    constructor
    · intro items hfc
      unfold extract_records
      dsimp only
      rw [hfc]
      exact map_obj_filterMap_asObj items
    · intro hfc
      unfold extract_records
      dsimp only
      rw [hfc]
  · rintro (rfl | ⟨b, rfl⟩ | ⟨n, rfl⟩ | ⟨t, rfl⟩) <;> rfl

/-- Witness for C5 at concrete payloads. -/
theorem extract_records_total_shape_witness :
    (extract_records (Json.arr [Json.obj [("a", Json.null)], Json.num 3])).map
        Json.obj = [Json.obj [("a", Json.null)]] ∧
    extract_records (Json.obj [("x", Json.num 1)]) = [[("x", Json.num 1)]] := by
  have h1 := (extract_records_total_shape
    (Json.arr [Json.obj [("a", Json.null)], Json.num 3])).1
    [Json.obj [("a", Json.null)], Json.num 3] rfl
  have h2 := ((extract_records_total_shape (Json.obj [("x", Json.num 1)])).2.1
    [("x", Json.num 1)] rfl).2 (by decide)
  exact ⟨h1.trans (by decide), h2⟩

/-- **C6**: `parse_link_header` parses a comma-separated header of
`<url>; rel="name"` segments into a relation-to-URL mapping, skipping
segments without a semicolon, with the last occurrence of a relation
winning; on the spec's example it returns exactly
`{"next": "http://x/2", "prev": "http://x/0"}`. -/
theorem parse_link_header_roundtrip :
    parse_link_header
        (some "<http://x/2>; rel=\"next\", <http://x/0>; rel=\"prev\"") =
      [("next", "http://x/2"), ("prev", "http://x/0")] ∧
    dget (parse_link_header
        (some "<http://x/2>; rel=\"next\", <http://x/0>; rel=\"prev\"")) "next" =
      some "http://x/2" ∧
    dget (parse_link_header
        (some "<http://x/2>; rel=\"next\", <http://x/0>; rel=\"prev\"")) "prev" =
      some "http://x/0" ∧
    parse_link_header (some "<u1>; rel=\"next\", <u2>; rel=\"next\"") =
      [("next", "u2")] ∧
    parse_link_header (some "no semicolon here, <u3>; rel=\"next\"") =
      [("next", "u3")] ∧
    parse_link_header none = [] ∧
    parse_link_header (some "") = [] := by
  refine ⟨by decide, by decide, by decide, by decide, by decide, rfl, by decide⟩

/-- **C8**: without manual dates for a range name, `resolve_date_range`
returns `(today + start_offset_days, today + end_offset_days)`, offsets
defaulting to 0, anchored to the evaluation-time date; no bound between
start and end is checked, so an inverted range is returned without error. -/
theorem resolve_date_range_offsets (config : DateRangesConfig)
    (rangeName : String) (today : Int)
    (h : ¬(truthy (manualFor config rangeName).startDate = true ∧
           truthy (manualFor config rangeName).endDate = true)) :
    resolve_date_range config rangeName today =
      some (today + ((offsetsFor config rangeName).start_offset_days.getD 0),
            today + ((offsetsFor config rangeName).end_offset_days.getD 0)) := by
  have hb : ¬((truthy (manualFor config rangeName).startDate &&
      truthy (manualFor config rangeName).endDate) = true) := by
    rw [Bool.and_eq_true]
    exact h
  unfold resolve_date_range
  rw [if_neg hb]

/-- Witness for C8: the spec's scenario (offsets −7/0 on today = 2024-06-10
give 2024-06-03 … 2024-06-10) and a silently returned inverted range. -/
theorem resolve_date_range_offsets_witness :
    resolve_date_range ⟨[], [("history", ⟨some (-7), some 0⟩)]⟩ "history"
        (toOrdinal 2024 6 10) =
      some (toOrdinal 2024 6 3, toOrdinal 2024 6 10) ∧
    resolve_date_range ⟨[], [("inv", ⟨some 5, some (-3)⟩)]⟩ "inv" 0 =
      some (5, -3) := by
  have h1 := resolve_date_range_offsets
    ⟨[], [("history", ⟨some (-7), some 0⟩)]⟩ "history"
    (toOrdinal 2024 6 10) (by decide)
  have h2 := resolve_date_range_offsets
    ⟨[], [("inv", ⟨some 5, some (-3)⟩)]⟩ "inv" 0 (by decide)
  exact ⟨h1.trans (by decide), h2.trans (by decide)⟩

/-- **C2**: one-to-many join semantics of `merge_records`, per primary
record: secondary records whose join-key value is absent or null are
excluded from the lookup (null is never a lookup key); a primary record with
n ≥ 1 matching secondaries yields exactly n output records, each the primary
record overlaid by that match — the secondary's value wins on every key
collision, including the join key itself. -/
theorem merge_records_one_to_many (p : Record) (s : List Record) (k : String)
    (hs : s ≠ []) (hwf : ∀ m ∈ s, WFRecord m) :
    dget (buildLookup s k) Json.null = none ∧
    (∀ m ∈ s, pyGet m k = Json.null →
      m ∉ matchingSecondaries s k (pyGet p k)) ∧
    (matchingSecondaries s k (pyGet p k) ≠ [] →
      merge_records [p] s k =
        (matchingSecondaries s k (pyGet p k)).map (dictMerge p) ∧
      (merge_records [p] s k).length =
        (matchingSecondaries s k (pyGet p k)).length ∧
      (∀ m ∈ matchingSecondaries s k (pyGet p k),
        pyGet m k = pyGet p k ∧
        (∀ q : String, dget (dictMerge p m) q =
          match dget m q with
          | some w => some w
          | none => dget p q) ∧
        dget (dictMerge p m) k = dget m k)) := by
  refine ⟨buildLookup_get_null s k, ?_, ?_⟩
  · intro m hm hmnull hmem
    unfold matchingSecondaries at hmem
    by_cases hv : pyGet p k = Json.null
    · rw [if_pos hv] at hmem
      cases hmem
    · rw [if_neg hv] at hmem
      have hthis := of_decide_eq_true (List.mem_filter.mp hmem).2
      exact hv (hthis.symm.trans hmnull)
  · intro hms
    have hvn : pyGet p k ≠ Json.null := by
      intro hv
      apply hms
      unfold matchingSecondaries
      rw [if_pos hv]
    have hmerge : merge_records [p] s k =
        (matchingSecondaries s k (pyGet p k)).map (dictMerge p) := by
      rw [merge_records_eq_mergeSpec]
      unfold mergeSpec
      rw [if_neg hs]
      simp only [List.map_cons, List.map_nil, List.flatten_cons,
        List.flatten_nil, List.append_nil]
      unfold mergeContribution
      rw [if_neg hms]
    refine ⟨hmerge, by rw [hmerge]; simp, ?_⟩
    intro m hm
    have hm2 := hm
    unfold matchingSecondaries at hm2
    rw [if_neg hvn] at hm2
    have hmem_s : m ∈ s := (List.mem_filter.mp hm2).1
    have hmk : pyGet m k = pyGet p k :=
      of_decide_eq_true (List.mem_filter.mp hm2).2
    have hwfm := hwf m hmem_s
    refine ⟨hmk, fun q => dget_dictMerge p m hwfm q, ?_⟩
    cases hdm : dget m k with
    | none =>
      exfalso
      apply hvn
      rw [← hmk]
      unfold pyGet
      rw [hdm]
      rfl
    | some w =>
      rw [dget_dictMerge p m hwfm k, hdm]

/-- Witness for C2: the spec's Cartesian-expansion scenario — two secondary
records sharing `id = 1` expand the matching primary into two merged
records, the secondary's `status` overlaying the primary's. -/
theorem merge_records_one_to_many_witness :
    merge_records [[("id", Json.num 1), ("status", Json.str "old")]]
        [[("id", Json.num 1), ("status", Json.str "ok")],
         [("id", Json.num 1), ("status", Json.str "late")]] "id" =
      [[("id", Json.num 1), ("status", Json.str "ok")],
       [("id", Json.num 1), ("status", Json.str "late")]] ∧
    (merge_records [[("id", Json.num 1), ("status", Json.str "old")]]
        [[("id", Json.num 1), ("status", Json.str "ok")],
         [("id", Json.num 1), ("status", Json.str "late")]] "id").length = 2 := by
  have h := merge_records_one_to_many
    [("id", Json.num 1), ("status", Json.str "old")]
    [[("id", Json.num 1), ("status", Json.str "ok")],
     [("id", Json.num 1), ("status", Json.str "late")]] "id"
    (by decide) (by decide)
  have h3 := h.2.2 (by decide)
  exact ⟨h3.1.trans (by decide), h3.2.1.trans (by decide)⟩

/-- **C4**: `fetch_paginated` over a finite response script returns the
in-order concatenation of each consumed page's normalized records; the first
request carries the caller's parameters, every later request targets the
previous page's `"next"` URL with no parameters; consumption stops at the
first page without a usable `"next"` relation, and exactly one HTTP call is
made per consumed page. -/
theorem fetch_paginated_pages (url : String) (params : Params)
    (script : List PageResponse) (recs : List Record)
    (calls : List (String × Option Params))
    (h : fetch_paginated url params script = some (recs, calls)) :
    1 ≤ calls.length ∧ calls.length ≤ script.length ∧
    calls.head? = some (url, some params) ∧
    recs = ((script.take calls.length).map
      (fun pg => extract_records pg.body)).flatten ∧
    calls.tail = (script.take (calls.length - 1)).map
      (fun pg => ((nextLinkOf pg).getD "", (none : Option Params))) ∧
    (∀ pg ∈ script.take (calls.length - 1), hasNext pg = true) ∧
    (∀ pg, script[calls.length - 1]? = some pg → hasNext pg = false) :=
  fetchLoop_sound script url (some params) recs calls h

/-- Witness for C4: the spec's two-page scenario — records `[{"id":1},
{"id":2}]` and exactly two calls, the second to `url2` with no params. -/
theorem fetch_paginated_pages_witness :
    fetch_paginated "url1" [] [scenarioPage1, scenarioPage2] =
      some ([[("id", Json.num 1)], [("id", Json.num 2)]],
        [("url1", some []), ("url2", none)]) ∧
    ([("url1", some ([] : Params)), ("url2", (none : Option Params))] :
      List (String × Option Params)).head? = some ("url1", some []) := by
  have h := fetch_paginated_pages "url1" [] [scenarioPage1, scenarioPage2]
    [[("id", Json.num 1)], [("id", Json.num 2)]]
    [("url1", some []), ("url2", none)] (by decide)
  exact ⟨by decide, h.2.2.1⟩

/-- **C7**: for every record list and non-empty field list, `filter_fields`
yields one fresh record per input record whose keys are exactly the given
field names (in the given order, when the names are distinct — a mapping
holds a repeated name once), each bound to the input's value for that field,
with an absent field bound to an explicit null, never an error or an
omission; the embedding is pure, so inputs are never mutated. -/
theorem filter_fields_shape (records : List Record) (fields : List String)
    (hne : fields ≠ []) :
    (filter_fields records fields).length = records.length ∧
    filter_fields records fields = records.map (projectRecord fields) ∧
    ∀ r : Record,
      (∀ q : String, q ∈ dkeys (projectRecord fields r) ↔ q ∈ fields) ∧
      (fields.Nodup → dkeys (projectRecord fields r) = fields) ∧
      (∀ f ∈ fields, dget (projectRecord fields r) f = some (pyGet r f)) ∧
      (∀ f ∈ fields, dget r f = none →
        dget (projectRecord fields r) f = some Json.null) := by
  refine ⟨by simp [filter_fields], rfl, fun r =>
    ⟨fun q => projectRecord_keys_mem_iff fields r q,
     fun h => projectRecord_keys_of_nodup fields r h,
     fun f hf => dget_projectRecord_mem fields r f hf,
     fun f hf habs => ?_⟩⟩
  rw [dget_projectRecord_mem fields r f hf]
  unfold pyGet
  rw [habs]
  rfl

/-- Witness for C7 at a concrete record and field list. -/
theorem filter_fields_shape_witness :
    (filter_fields [[("id", Json.num 7)]] ["id", "name"]).length = 1 ∧
    dkeys (projectRecord ["id", "name"] [("id", Json.num 7)]) =
      ["id", "name"] ∧
    dget (projectRecord ["id", "name"] [("id", Json.num 7)]) "name" =
      some Json.null := by
  have h := filter_fields_shape [[("id", Json.num 7)]] ["id", "name"]
    (by decide)
  refine ⟨h.1, ?_, ?_⟩
  · exact (h.2.2 [("id", Json.num 7)]).2.1 (by decide)
  · exact (h.2.2 [("id", Json.num 7)]).2.2.2 "name" (by decide) (by decide)
